import Mathlib

/-!
Shallow embedding of `src/check_imports.py`.

The program walks a directory tree, extracts import specifiers from
`.ts` and `.tsx` files with the Python regex `from\s+['"](.+)['"]`,
classifies each alias-form (`@/...`) or relative-form (`./...`) specifier
as resolved or missing by probing the filesystem with a fixed ordered
suffix list, prints one line per missing specifier and a final success
line when none is missing.

Strings are modelled as `List Char`, the filesystem as a record of
boolean oracles (`os.path.exists`, `os.path.isdir`) together with a
per-path decodable content (`none` models a `UnicodeDecodeError`), and
the directory walk as an explicit list of `(subdir, files)` pairs, which
is the data `os.walk` feeds to the loop body.  Printing and the error
counter are modelled by threading a `World` state, so that the
filesystem component of the state can be observed to be untouched.
-/

namespace CheckImports

/-- Python regex `\s` over ASCII: space, tab, newline, carriage return,
vertical tab, form feed. -/
def isPySpace (c : Char) : Bool :=
  c == ' ' || c == '\t' || c == '\n' || c == '\r' || c == Char.ofNat 11 || c == Char.ofNat 12

/-- A single or double quote character, the character class of the regex. -/
def isQuote (c : Char) : Bool := c == '\'' || c == '"'

/-- Index of the last quote character of the list, if any. -/
def lastQuotePos : List Char → Option Nat
  | [] => none
  | c :: t =>
    match lastQuotePos t with
    | some j => some (j + 1)
    | none => if isQuote c then some 0 else none

/-- Index of the closing quote for the greedy nonempty capture `(.+)`:
the last quote of the line, provided at least one character precedes it. -/
def lastCloseIdx (line : List Char) : Option Nat :=
  match lastQuotePos line with
  | some j => if j = 0 then none else some j
  | none => none

/-- One attempted match of the regex `from\s+['"](.+)['"]` anchored at the
head of the input: the literal `from`, one or more whitespace characters,
an opening quote, then the greedy capture running to the last quote of the
current line.  Returns the captured group and the input remaining after
the match. -/
def tryMatchFrom : List Char → Option (List Char × List Char)
  | 'f' :: 'r' :: 'o' :: 'm' :: rest =>
    if (rest.takeWhile isPySpace).isEmpty then none
    else
      match rest.dropWhile isPySpace with
      | [] => none
      | q :: rest2 =>
        if isQuote q then
          match lastCloseIdx (rest2.takeWhile (fun c => c != '\n')) with
          | some j => some (rest2.take j, rest2.drop (j + 1))
          | none => none
        else none
  | _ => none

/-- Left-to-right scan producing the captured groups of the non-overlapping
matches, as `re.findall` does.  Fuelled recursion; every step consumes at
least one character, so fuel equal to the input length is enough. -/
def findallAux : Nat → List Char → List (List Char)
  | 0, _ => []
  | fuel + 1, l =>
    match tryMatchFrom l with
    | some (g, r) => g :: findallAux fuel r
    | none =>
      match l with
      | [] => []
      | _ :: t => findallAux fuel t

/-- `re.findall(r'from\s+[\x27"](.+)[\x27"]', content)`. -/
def findallFromSpec (l : List Char) : List (List Char) := findallAux l.length l

/-- Index of the last `/` of the list, if any. -/
def lastSlashPos : List Char → Option Nat
  | [] => none
  | c :: t =>
    match lastSlashPos t with
    | some j => some (j + 1)
    | none => if c == '/' then some 0 else none

/-- Python `str.rstrip('/')`. -/
def rstripSlash (l : List Char) : List Char :=
  (l.reverse.dropWhile (fun c => c == '/')).reverse

/-- `posixpath.dirname`: everything up to and including the last `/`,
with trailing slashes stripped unless the result is all slashes. -/
def dirname (p : List Char) : List Char :=
  let head := match lastSlashPos p with
    | none => ([] : List Char)
    | some i => p.take (i + 1)
  if head.isEmpty then head
  else if head.all (fun c => c == '/') then head
  else rstripSlash head

/-- `posixpath.join` on two components: an absolute second component wins;
otherwise concatenate, inserting `/` unless the first component is empty
or already ends in `/`. -/
def osPathJoin (a b : List Char) : List Char :=
  if List.isPrefixOf ['/'] b then b
  else if a.isEmpty || List.isSuffixOf ['/'] a then a ++ b
  else a ++ '/' :: b

/-- The filesystem as seen through the calls the program makes:
`os.path.exists`, `os.path.isdir`, and reading a file's text (`none`
models a `UnicodeDecodeError` while decoding the content). -/
structure FS where
  ex : List Char → Bool
  isdir : List Char → Bool
  content : List Char → Option (List Char)

/-- A line printed to standard output. -/
inductive Line where
  | missing (filepath : List Char) (imp : List Char)
  | noMissing
deriving DecidableEq

/-- The run state: the (read-only) filesystem, the lines printed so far,
and the `error_count` accumulator. -/
structure World where
  fs : FS
  out : List Line
  errs : Nat

/-- The suffix list of the resolution loop:
`['.ts', '.tsx', '.js', '.jsx', '/index.ts', '/index.tsx', '']`. -/
def extList : List (List Char) :=
  [".ts".data, ".tsx".data, ".js".data, ".jsx".data,
   "/index.ts".data, "/index.tsx".data, []]

/-- The `for ext in [...]` loop with its `break`: test `abs_path + ext`
for each suffix in order, stopping at the first hit. -/
def loopFound (fs : FS) (absPath : List Char) : List (List Char) → Bool
  | [] => false
  | e :: es => if fs.ex (absPath ++ e) then true else loopFound fs absPath es

/-- The same loop instrumented with the index at which it breaks. -/
def firstHitIdx (fs : FS) (absPath : List Char) : List (List Char) → Option Nat
  | [] => none
  | e :: es =>
    if fs.ex (absPath ++ e) then some 0 else (firstHitIdx fs absPath es).map (· + 1)

def aliasPfx : List Char := ['@', '/']

def dotPfx : List Char := ['.']

def idxTs : List Char := "index.ts".data

def idxTsx : List Char := "index.tsx".data

/-- `print(f"Missing import in {filepath}: {imp}")` and `error_count += 1`. -/
def emitMissing (w : World) (filepath imp : List Char) : World :=
  { w with out := w.out ++ [Line.missing filepath imp], errs := w.errs + 1 }

/-- The body of `for imp in imports` in `check_imports`: the alias branch
with its extension loop and its directory-index fallback, the relative
branch with its extension loop only, and the silent skip of every other
specifier. -/
def processImportW (root filepath imp : List Char) (w : World) : World :=
  if List.isPrefixOf aliasPfx imp then
    let absPath := osPathJoin root (imp.drop 2)
    let found := loopFound w.fs absPath extList
    let found2 :=
      if !found then
        if w.fs.isdir absPath then
          if w.fs.ex (osPathJoin absPath idxTs) || w.fs.ex (osPathJoin absPath idxTsx) then
            true
          else found
        else found
      else found
    if !found2 then emitMissing w filepath imp else w
  else if List.isPrefixOf dotPfx imp then
    let dirPath := dirname filepath
    let absPath := osPathJoin dirPath imp
    let found := loopFound w.fs absPath extList
    if !found then emitMissing w filepath imp else w
  else w

def tsxExt : List Char := ".tsx".data

def tsExt : List Char := ".ts".data

/-- The body of `for file in files`: extension filter, path join, read
(skipping the file on decode failure), then the per-import loop. -/
def processFileW (root subdir file : List Char) (w : World) : World :=
  if List.isSuffixOf tsxExt file || List.isSuffixOf tsExt file then
    let filepath := osPathJoin subdir file
    match w.fs.content filepath with
    | none => w
    | some content =>
      (findallFromSpec content).foldl (fun w2 imp => processImportW root filepath imp w2) w
  else w

/-- `check_imports(root_dir)`: the walk (given as the list of
`(subdir, files)` pairs `os.walk` yields), the nested loops, and the
final success line printed when `error_count == 0`. -/
def check_imports (fs : FS) (rootDir : List Char)
    (walk : List (List Char × List (List Char))) : World :=
  let w :=
    walk.foldl (fun w sd => sd.2.foldl (fun w2 file => processFileW rootDir sd.1 file w2) w)
      { fs := fs, out := [], errs := 0 }
  if w.errs = 0 then { w with out := w.out ++ [Line.noMissing] } else w

/-- Variant of the per-import body with the alias branch's directory-index
fallback removed, used to show the fallback never changes any
classification on a consistent filesystem. -/
def processImportNoFallbackW (root filepath imp : List Char) (w : World) : World :=
  if List.isPrefixOf aliasPfx imp then
    let absPath := osPathJoin root (imp.drop 2)
    let found := loopFound w.fs absPath extList
    if !found then emitMissing w filepath imp else w
  else if List.isPrefixOf dotPfx imp then
    let dirPath := dirname filepath
    let absPath := osPathJoin dirPath imp
    let found := loopFound w.fs absPath extList
    if !found then emitMissing w filepath imp else w
  else w

/-- A real filesystem reports every directory as existing: `os.path.isdir`
implies `os.path.exists`. -/
def FS.consistent (fs : FS) : Prop := ∀ p, fs.isdir p = true → fs.ex p = true

/-- Resolution verdict of the alias branch as a function of the base path:
the suffix loop, else the directory-index fallback. -/
def aliasFoundB (fs : FS) (b : List Char) : Bool :=
  loopFound fs b extList ||
    (fs.isdir b && (fs.ex (osPathJoin b idxTs) || fs.ex (osPathJoin b idxTsx)))

/-- Resolution verdict of the relative branch as a function of the base
path: the suffix loop only. -/
def relFoundB (fs : FS) (b : List Char) : Bool := loopFound fs b extList

/-- The base path each in-scope specifier is resolved against: the project
root joined with the alias-stripped specifier for the alias form, the
owning file's directory joined with the specifier for the relative form. -/
def basePathOf (root filepath imp : List Char) : List Char :=
  if List.isPrefixOf aliasPfx imp then osPathJoin root (imp.drop 2)
  else osPathJoin (dirname filepath) imp

/-- The missing references one specifier contributes: at most one pair of
owning file path and specifier. -/
def importDelta (fs : FS) (root fp imp : List Char) : List (List Char × List Char) :=
  if List.isPrefixOf aliasPfx imp then
    if aliasFoundB fs (osPathJoin root (imp.drop 2)) then [] else [(fp, imp)]
  else if List.isPrefixOf dotPfx imp then
    if relFoundB fs (osPathJoin (dirname fp) imp) then [] else [(fp, imp)]
  else []

/-- The missing references one file contributes, in first-appearance
order of its extracted specifiers. -/
def fileDelta (fs : FS) (root subdir file : List Char) : List (List Char × List Char) :=
  if List.isSuffixOf tsxExt file || List.isSuffixOf tsExt file then
    match fs.content (osPathJoin subdir file) with
    | none => []
    | some content => (findallFromSpec content).flatMap (importDelta fs root (osPathJoin subdir file))
  else []

/-- All missing references of a run, in walk order then in-file order. -/
def walkDelta (fs : FS) (root : List Char)
    (walk : List (List Char × List (List Char))) : List (List Char × List Char) :=
  walk.flatMap (fun sd => sd.2.flatMap (fun file => fileDelta fs root sd.1 file))

/-- The diagnostic line a missing reference is printed as. -/
def mkMissing (pr : List Char × List Char) : Line := Line.missing pr.1 pr.2

/-- A minimal import line: `from`, one space, the specifier in single
quotes. -/
def fromLine (s : List Char) : List Char :=
  'f' :: 'r' :: 'o' :: 'm' :: ' ' :: '\'' :: (s ++ ['\''])

/-- A filesystem on which every path exists and is a directory. -/
def fsAllTrue : FS := ⟨fun _ => true, fun _ => true, fun _ => none⟩

/-- A filesystem on which no path exists and no file decodes. -/
def fsNoContent : FS := ⟨fun _ => false, fun _ => false, fun _ => none⟩

/-- A filesystem holding exactly the file `r/x.tsx`. -/
def fsTsx : FS := ⟨fun p => p == "r/x.tsx".data, fun _ => false, fun _ => none⟩

/-- A filesystem on which `r/a/./x/` is a directory, only
`r/a/./x/index.ts` passes the existence test, and nothing decodes.  It
separates the alias branch from the relative branch on the shared base
path `r/a/./x/`. -/
def fsC2 : FS :=
  ⟨fun p => p == "r/a/./x/index.ts".data, fun p => p == "r/a/./x/".data, fun _ => none⟩

theorem dot_not_alias {imp : List Char} (h : List.isPrefixOf dotPfx imp = true) :
    List.isPrefixOf aliasPfx imp = false := by
  cases imp with
  | nil => simp [dotPfx, List.isPrefixOf] at h
  | cons c t =>
    simp [dotPfx, List.isPrefixOf] at h
    subst h
    simp [aliasPfx, List.isPrefixOf]

theorem processImportW_alias {imp : List Char} (root fp : List Char) (fs : FS)
    (o : List Line) (e : Nat) (h : List.isPrefixOf aliasPfx imp = true) :
    processImportW root fp imp ⟨fs, o, e⟩ =
      if aliasFoundB fs (osPathJoin root (imp.drop 2)) then ⟨fs, o, e⟩
      else ⟨fs, o ++ [Line.missing fp imp], e + 1⟩ := by
  simp only [processImportW, h, if_true, aliasFoundB, emitMissing]
  by_cases hl : loopFound fs (osPathJoin root (imp.drop 2)) extList = true
  · simp [hl]
  · have hl' : loopFound fs (osPathJoin root (imp.drop 2)) extList = false :=
      Bool.eq_false_iff.mpr hl
    by_cases hd : fs.isdir (osPathJoin root (imp.drop 2)) = true
    · by_cases hx : (fs.ex (osPathJoin (osPathJoin root (imp.drop 2)) idxTs) ||
          fs.ex (osPathJoin (osPathJoin root (imp.drop 2)) idxTsx)) = true
      · simp [hl', hd, hx]
      · have hx' : (fs.ex (osPathJoin (osPathJoin root (imp.drop 2)) idxTs) ||
            fs.ex (osPathJoin (osPathJoin root (imp.drop 2)) idxTsx)) = false :=
          Bool.eq_false_iff.mpr hx
        simp [hl', hd, hx']
    · have hd' : fs.isdir (osPathJoin root (imp.drop 2)) = false :=
        Bool.eq_false_iff.mpr hd
      simp [hl', hd']

theorem processImportW_rel {imp : List Char} (root fp : List Char) (fs : FS)
    (o : List Line) (e : Nat) (h : List.isPrefixOf dotPfx imp = true) :
    processImportW root fp imp ⟨fs, o, e⟩ =
      if relFoundB fs (osPathJoin (dirname fp) imp) then ⟨fs, o, e⟩
      else ⟨fs, o ++ [Line.missing fp imp], e + 1⟩ := by
  simp only [processImportW, dot_not_alias h, h, if_true, Bool.false_eq_true, if_false,
    relFoundB, emitMissing]
  by_cases hl : loopFound fs (osPathJoin (dirname fp) imp) extList = true
  · simp [hl]
  · have hl' : loopFound fs (osPathJoin (dirname fp) imp) extList = false :=
      Bool.eq_false_iff.mpr hl
    simp [hl']

theorem processImportW_bare {imp : List Char} (root fp : List Char) (w : World)
    (h1 : List.isPrefixOf aliasPfx imp = false) (h2 : List.isPrefixOf dotPfx imp = false) :
    processImportW root fp imp w = w := by
  simp [processImportW, h1, h2]

theorem processImportW_delta (root fp imp : List Char) (fs : FS) (o : List Line) (e : Nat) :
    processImportW root fp imp ⟨fs, o, e⟩ =
      ⟨fs, o ++ (importDelta fs root fp imp).map mkMissing,
        e + (importDelta fs root fp imp).length⟩ := by
  by_cases ha : List.isPrefixOf aliasPfx imp = true
  · rw [processImportW_alias root fp fs o e ha]
    simp only [importDelta, ha, if_true]
    by_cases hf : aliasFoundB fs (osPathJoin root (imp.drop 2)) = true
    · simp [hf]
    · have hf' : aliasFoundB fs (osPathJoin root (imp.drop 2)) = false :=
        Bool.eq_false_iff.mpr hf
      simp [hf', mkMissing]
  · have ha' : List.isPrefixOf aliasPfx imp = false := by
      cases hb : List.isPrefixOf aliasPfx imp
      · rfl
      · exact absurd hb ha
    by_cases hd : List.isPrefixOf dotPfx imp = true
    · rw [processImportW_rel root fp fs o e hd]
      simp only [importDelta, ha', Bool.false_eq_true, if_false, hd, if_true]
      by_cases hf : relFoundB fs (osPathJoin (dirname fp) imp) = true
      · simp [hf]
      · have hf' : relFoundB fs (osPathJoin (dirname fp) imp) = false :=
          Bool.eq_false_iff.mpr hf
        simp [hf', mkMissing]
    · have hd' : List.isPrefixOf dotPfx imp = false := by
        cases hb : List.isPrefixOf dotPfx imp
        · rfl
        · exact absurd hb hd
      rw [processImportW_bare root fp _ ha' hd']
      simp [importDelta, ha', hd']

theorem foldl_imports (root fp : List Char) (fs : FS) :
    ∀ (imps : List (List Char)) (o : List Line) (e : Nat),
      imps.foldl (fun w2 imp => processImportW root fp imp w2) ⟨fs, o, e⟩ =
        ⟨fs, o ++ (imps.flatMap (importDelta fs root fp)).map mkMissing,
          e + (imps.flatMap (importDelta fs root fp)).length⟩
  | [], o, e => by simp
  | imp :: t, o, e => by
    simp only [List.foldl_cons]
    rw [processImportW_delta, foldl_imports root fp fs t]
    simp [List.append_assoc, Nat.add_assoc]

theorem processFileW_delta (root subdir file : List Char) (fs : FS) (o : List Line) (e : Nat) :
    processFileW root subdir file ⟨fs, o, e⟩ =
      ⟨fs, o ++ (fileDelta fs root subdir file).map mkMissing,
        e + (fileDelta fs root subdir file).length⟩ := by
  simp only [processFileW, fileDelta]
  by_cases hext : (List.isSuffixOf tsxExt file || List.isSuffixOf tsExt file) = true
  · simp only [hext, if_true]
    cases hc : fs.content (osPathJoin subdir file) with
    | none => simp [hc]
    | some content => simp [hc, foldl_imports]
  · have hext' : (List.isSuffixOf tsxExt file || List.isSuffixOf tsExt file) = false :=
      Bool.eq_false_iff.mpr hext
    simp [hext']

theorem foldl_files (root subdir : List Char) (fs : FS) :
    ∀ (files : List (List Char)) (o : List Line) (e : Nat),
      files.foldl (fun w2 file => processFileW root subdir file w2) ⟨fs, o, e⟩ =
        ⟨fs, o ++ (files.flatMap (fileDelta fs root subdir)).map mkMissing,
          e + (files.flatMap (fileDelta fs root subdir)).length⟩
  | [], o, e => by simp
  | file :: t, o, e => by
    simp only [List.foldl_cons]
    rw [processFileW_delta, foldl_files root subdir fs t]
    simp [List.append_assoc, Nat.add_assoc]

theorem foldl_walk (root : List Char) (fs : FS) :
    ∀ (walk : List (List Char × List (List Char))) (o : List Line) (e : Nat),
      walk.foldl (fun w sd => sd.2.foldl (fun w2 file => processFileW root sd.1 file w2) w)
          ⟨fs, o, e⟩ =
        ⟨fs, o ++ (walkDelta fs root walk).map mkMissing,
          e + (walkDelta fs root walk).length⟩
  | [], o, e => by simp [walkDelta]
  | sd :: t, o, e => by
    simp only [List.foldl_cons]
    rw [foldl_files, foldl_walk root fs t]
    simp [walkDelta, List.append_assoc, Nat.add_assoc]

theorem check_imports_eq (fs : FS) (root : List Char)
    (walk : List (List Char × List (List Char))) :
    check_imports fs root walk =
      ⟨fs, (walkDelta fs root walk).map mkMissing ++
          (if (walkDelta fs root walk).length = 0 then [Line.noMissing] else []),
        (walkDelta fs root walk).length⟩ := by
  simp only [check_imports]
  rw [foldl_walk]
  simp only [List.nil_append, Nat.zero_add]
  by_cases h0 : (walkDelta fs root walk).length = 0
  · simp [h0]
  · simp [h0]

theorem firstHitIdx_some (fs : FS) (b : List Char) :
    ∀ (l : List (List Char)) (i : Nat), firstHitIdx fs b l = some i →
      i < l.length ∧ fs.ex (b ++ l.getD i []) = true ∧
        ∀ j, j < i → fs.ex (b ++ l.getD j []) = false
  | [], i, h => by simp [firstHitIdx] at h
  | ec :: es, i, h => by
    by_cases hx : fs.ex (b ++ ec) = true
    · simp only [firstHitIdx, hx, if_true] at h
      obtain rfl : (0 : Nat) = i := Option.some.inj h
      refine ⟨Nat.succ_pos _, by simpa using hx, fun j hj => absurd hj (Nat.not_lt_zero j)⟩
    · have hx' : fs.ex (b ++ ec) = false := Bool.eq_false_iff.mpr hx
      simp only [firstHitIdx, hx', Bool.false_eq_true, if_false, Option.map_eq_some'] at h
      obtain ⟨i', hi', rfl⟩ := h
      obtain ⟨hlen, hex, hlt⟩ := firstHitIdx_some fs b es i' hi'
      refine ⟨Nat.succ_lt_succ hlen, by simpa using hex, ?_⟩
      intro j hj
      cases j with
      | zero => simpa using hx'
      | succ j' => simpa using hlt j' (Nat.lt_of_succ_lt_succ hj)

theorem firstHitIdx_none (fs : FS) (b : List Char) :
    ∀ (l : List (List Char)), firstHitIdx fs b l = none →
      ∀ j, j < l.length → fs.ex (b ++ l.getD j []) = false
  | [], _, j, hj => by simp at hj
  | ec :: es, h, j, hj => by
    by_cases hx : fs.ex (b ++ ec) = true
    · simp [firstHitIdx, hx] at h
    · have hx' : fs.ex (b ++ ec) = false := Bool.eq_false_iff.mpr hx
      simp only [firstHitIdx, hx', Bool.false_eq_true, if_false, Option.map_eq_none'] at h
      cases j with
      | zero => simpa using hx'
      | succ j' =>
        simpa using firstHitIdx_none fs b es h j' (Nat.lt_of_succ_lt_succ hj)

theorem loopFound_eq_isSome (fs : FS) (b : List Char) :
    ∀ (l : List (List Char)), loopFound fs b l = (firstHitIdx fs b l).isSome
  | [] => by simp [loopFound, firstHitIdx]
  | ec :: es => by
    by_cases hx : fs.ex (b ++ ec) = true
    · simp [loopFound, firstHitIdx, hx]
    · have hx' : fs.ex (b ++ ec) = false := Bool.eq_false_iff.mpr hx
      simp [loopFound, firstHitIdx, hx', loopFound_eq_isSome fs b es]

theorem loopFound_of_mem (fs : FS) (b : List Char) :
    ∀ (l : List (List Char)) (e : List Char), e ∈ l → fs.ex (b ++ e) = true →
      loopFound fs b l = true
  | ec :: es, e, hmem, hex => by
    by_cases hx : fs.ex (b ++ ec) = true
    · simp [loopFound, hx]
    · have hx' : fs.ex (b ++ ec) = false := Bool.eq_false_iff.mpr hx
      rcases List.mem_cons.mp hmem with rfl | hmem'
      · exact absurd hex hx
      · simp [loopFound, hx', loopFound_of_mem fs b es e hmem' hex]

theorem loopFound_of_ex_base {fs : FS} {b : List Char} (hex : fs.ex b = true) :
    loopFound fs b extList = true := by
  refine loopFound_of_mem fs b extList [] (by simp [extList]) ?_
  simpa [List.append_nil] using hex

theorem aliasFoundB_eq_of_consistent {fs : FS} (hc : FS.consistent fs) (b : List Char) :
    aliasFoundB fs b = relFoundB fs b := by
  unfold aliasFoundB relFoundB
  by_cases hl : loopFound fs b extList = true
  · simp [hl]
  · by_cases hd : fs.isdir b = true
    · exact absurd (loopFound_of_ex_base (hc b hd)) hl
    · have hl' : loopFound fs b extList = false := Bool.eq_false_iff.mpr hl
      have hd' : fs.isdir b = false := Bool.eq_false_iff.mpr hd
      simp [hl', hd']

theorem processImportNoFallbackW_alias {imp : List Char} (root fp : List Char) (fs : FS)
    (o : List Line) (e : Nat) (h : List.isPrefixOf aliasPfx imp = true) :
    processImportNoFallbackW root fp imp ⟨fs, o, e⟩ =
      if relFoundB fs (osPathJoin root (imp.drop 2)) then ⟨fs, o, e⟩
      else ⟨fs, o ++ [Line.missing fp imp], e + 1⟩ := by
  simp only [processImportNoFallbackW, h, if_true, relFoundB, emitMissing]
  by_cases hl : loopFound fs (osPathJoin root (imp.drop 2)) extList = true
  · simp [hl]
  · have hl' : loopFound fs (osPathJoin root (imp.drop 2)) extList = false :=
      Bool.eq_false_iff.mpr hl
    simp [hl']

theorem processImportW_eq_noFallback {fs : FS} (hc : FS.consistent fs)
    (root fp imp : List Char) (o : List Line) (e : Nat) :
    processImportW root fp imp ⟨fs, o, e⟩ = processImportNoFallbackW root fp imp ⟨fs, o, e⟩ := by
  by_cases ha : List.isPrefixOf aliasPfx imp = true
  · rw [processImportW_alias root fp fs o e ha, processImportNoFallbackW_alias root fp fs o e ha,
      aliasFoundB_eq_of_consistent hc]
  · have ha' : List.isPrefixOf aliasPfx imp = false := Bool.eq_false_iff.mpr ha
    simp only [processImportW, processImportNoFallbackW, ha', Bool.false_eq_true, if_false]

theorem findallAux_nil : ∀ f : Nat, findallAux f [] = []
  | 0 => rfl
  | _ + 1 => rfl

theorem findallAux_match {l g r : List Char} (f : Nat) (h : tryMatchFrom l = some (g, r))
    (hf : f ≠ 0) : findallAux f l = g :: findallAux (f - 1) r := by
  cases f with
  | zero => exact absurd rfl hf
  | succ f' => simp [findallAux, h]

theorem findallAux_skip (f : Nat) {c : Char} {t : List Char}
    (h : tryMatchFrom (c :: t) = none) (hf : f ≠ 0) :
    findallAux f (c :: t) = findallAux (f - 1) t := by
  cases f with
  | zero => exact absurd rfl hf
  | succ f' => simp [findallAux, h]

theorem tryMatchFrom_nl (t : List Char) : tryMatchFrom ('\n' :: t) = none := rfl

theorem takeWhile_append_all {p : Char → Bool} :
    ∀ {l₁ : List Char} (l₂ : List Char), (∀ c ∈ l₁, p c = true) →
      (l₁ ++ l₂).takeWhile p = l₁ ++ l₂.takeWhile p
  | [], l₂, _ => rfl
  | a :: t, l₂, h => by
    have ha : p a = true := h a (List.mem_cons_self a t)
    simp only [List.cons_append, List.takeWhile_cons, ha, if_true]
    rw [takeWhile_append_all l₂ (fun c hc => h c (List.mem_cons_of_mem a hc))]

theorem lastQuotePos_append_quote :
    ∀ (s : List Char) {c : Char}, isQuote c = true → lastQuotePos (s ++ [c]) = some s.length
  | [], c, h => by simp [lastQuotePos, h]
  | a :: t, c, h => by
    simp only [List.cons_append, lastQuotePos, List.append_eq,
      lastQuotePos_append_quote t h, List.length_cons]

theorem take_append_cons :
    ∀ (s : List Char) (c : Char) (r : List Char), (s ++ c :: r).take s.length = s
  | [], _, _ => rfl
  | a :: t, c, r => by
    simp only [List.cons_append, List.length_cons, List.take_succ_cons, take_append_cons t c r]

theorem drop_append_cons :
    ∀ (s : List Char) (c : Char) (r : List Char), (s ++ c :: r).drop (s.length + 1) = r
  | [], _, _ => rfl
  | a :: t, c, r => by
    simp only [List.cons_append, List.length_cons]
    exact drop_append_cons t c r

theorem tryMatch_fromLine (s r : List Char) (hs : s ≠ []) (hn : '\n' ∉ s)
    (hr : r = [] ∨ ∃ t, r = '\n' :: t) :
    tryMatchFrom ('f' :: 'r' :: 'o' :: 'm' :: ' ' :: '\'' :: (s ++ '\'' :: r)) =
      some (s, r) := by
  have hsp : (( ' ' :: '\'' :: (s ++ '\'' :: r)).takeWhile isPySpace) = [' '] := rfl
  have hdp : (( ' ' :: '\'' :: (s ++ '\'' :: r)).dropWhile isPySpace) = '\'' :: (s ++ '\'' :: r) := rfl
  have hline : ((s ++ '\'' :: r).takeWhile (fun c => c != '\n')) = s ++ ['\''] := by
    have hall : ∀ c ∈ s, (c != '\n') = true := by
      intro c hc
      have : c ≠ '\n' := fun hEq => hn (hEq ▸ hc)
      simpa [bne_iff_ne] using this
    rw [takeWhile_append_all _ hall]
    rcases hr with rfl | ⟨t, rfl⟩ <;> rfl
  have hlast : lastCloseIdx ((s ++ '\'' :: r).takeWhile (fun c => c != '\n')) = some s.length := by
    rw [hline]
    have h0 : s.length ≠ 0 := fun h0 => hs (List.eq_nil_of_length_eq_zero h0)
    simp [lastCloseIdx, lastQuotePos_append_quote s (show isQuote '\'' = true from rfl), h0]
  simp only [tryMatchFrom, hsp, hdp, List.isEmpty_cons, hlast]
  simp [take_append_cons, drop_append_cons, isQuote]

/-- Claim C1: for every alias-form or relative-form specifier, resolution
probes the base path with the seven suffixes of `extList` in their fixed
order and stops at the first existing candidate (`firstHitIdx` breaks at an
existing candidate all of whose predecessors fail the existence test), and
the specifier is classified resolved exactly when some candidate exists or,
in the alias form, the directory-index fallback succeeds. -/
theorem C1_suffix_order_resolution (fs : FS) (root fp imp : List Char) (o : List Line)
    (e : Nat) (h : List.isPrefixOf aliasPfx imp = true ∨ List.isPrefixOf dotPfx imp = true) :
    (∀ i, firstHitIdx fs (basePathOf root fp imp) extList = some i →
        fs.ex (basePathOf root fp imp ++ extList.getD i []) = true ∧
          ∀ j, j < i → fs.ex (basePathOf root fp imp ++ extList.getD j []) = false) ∧
    (firstHitIdx fs (basePathOf root fp imp) extList = none →
        ∀ j, j < extList.length → fs.ex (basePathOf root fp imp ++ extList.getD j []) = false) ∧
    ((processImportW root fp imp ⟨fs, o, e⟩).errs = e ↔
      ((firstHitIdx fs (basePathOf root fp imp) extList).isSome = true ∨
        (List.isPrefixOf aliasPfx imp = true ∧ fs.isdir (basePathOf root fp imp) = true ∧
          (fs.ex (osPathJoin (basePathOf root fp imp) idxTs) = true ∨
            fs.ex (osPathJoin (basePathOf root fp imp) idxTsx) = true)))) := by
  refine ⟨fun i hi => (firstHitIdx_some fs _ extList i hi).2, firstHitIdx_none fs _ extList, ?_⟩
  rcases h with ha | hd
  · simp only [basePathOf, ha, if_true]
    rw [processImportW_alias root fp fs o e ha]
    by_cases hf : aliasFoundB fs (osPathJoin root (imp.drop 2)) = true
    · simp only [hf, if_true]
      constructor
      · intro _
        have hf2 := hf
        simp only [aliasFoundB, Bool.or_eq_true, Bool.and_eq_true,
          loopFound_eq_isSome fs _ extList] at hf2
        rcases hf2 with hl | ⟨hdd, hee⟩
        · exact Or.inl hl
        · exact Or.inr ⟨by simp [ha], hdd, by simpa [Bool.or_eq_true] using hee⟩
      · intro _
        trivial
    · have hf' : aliasFoundB fs (osPathJoin root (imp.drop 2)) = false :=
        Bool.eq_false_iff.mpr hf
      simp only [hf', Bool.false_eq_true, if_false]
      constructor
      · intro hcontra
        exfalso
        simp only [World.errs] at hcontra
        omega
      · intro hor
        exfalso
        apply hf
        simp only [aliasFoundB, Bool.or_eq_true, Bool.and_eq_true,
          loopFound_eq_isSome fs _ extList]
        rcases hor with hl | ⟨_, hdd, hee⟩
        · exact Or.inl hl
        · exact Or.inr ⟨hdd, by simpa [Bool.or_eq_true] using hee⟩
  · have ha' : List.isPrefixOf aliasPfx imp = false := dot_not_alias hd
    simp only [basePathOf, ha', Bool.false_eq_true, if_false]
    rw [processImportW_rel root fp fs o e hd]
    by_cases hf : relFoundB fs (osPathJoin (dirname fp) imp) = true
    · simp only [hf, if_true]
      constructor
      · intro _
        left
        have hf2 := hf
        simpa only [relFoundB, loopFound_eq_isSome fs _ extList] using hf2
      · intro _
        trivial
    · have hf' : relFoundB fs (osPathJoin (dirname fp) imp) = false := Bool.eq_false_iff.mpr hf
      simp only [hf', Bool.false_eq_true, if_false]
      constructor
      · intro hcontra
        exfalso
        simp only [World.errs] at hcontra
        omega
      · intro hor
        exfalso
        rcases hor with hl | ⟨haT, _, _⟩
        · exact hf (by simpa only [relFoundB, loopFound_eq_isSome fs _ extList] using hl)
        · exact haT.elim

theorem C1_suffix_order_resolution_witness :
    (processImportW "r".data "r/a.ts".data "@/x".data ⟨fsTsx, [], 0⟩).errs = 0 := by
  have h := C1_suffix_order_resolution fsTsx "r".data "r/a.ts".data "@/x".data [] 0
    (Or.inl (by decide))
  exact h.2.2.mpr (Or.inl (by decide))

/-- Claim C2 counterexample: on the filesystem `fsC2` the alias specifier
`@/a/./x/` and the relative specifier `./x/` (owned by `r/a/f.ts`, root
`r`) yield the same base path `r/a/./x/`, yet the alias one is classified
resolved (through the directory-index fallback, which only the alias
branch has) while the relative one is classified missing. -/
theorem C2_fallback_asymmetry_counterexample :
    osPathJoin "r".data ("@/a/./x/".data.drop 2) = osPathJoin (dirname "r/a/f.ts".data) "./x/".data ∧
    (processImportW "r".data "r/a/f.ts".data "@/a/./x/".data ⟨fsC2, [], 0⟩).errs = 0 ∧
    (processImportW "r".data "r/a/f.ts".data "./x/".data ⟨fsC2, [], 0⟩).errs = 1 := by
  decide

/-- Claim C2 (amended): the directory-index fallback exists only in the
alias branch; still, on every filesystem where a path reported as a
directory also passes the existence test, two specifiers of the two forms
that yield the same base path are classified identically, because the
empty-suffix candidate already succeeds on any existing directory. -/
theorem C2_same_base_same_class (fs : FS) (hc : FS.consistent fs)
    (root fA fR impA impR : List Char) (o : List Line) (e : Nat)
    (hA : List.isPrefixOf aliasPfx impA = true) (hR : List.isPrefixOf dotPfx impR = true)
    (hb : osPathJoin root (impA.drop 2) = osPathJoin (dirname fR) impR) :
    (processImportW root fA impA ⟨fs, o, e⟩).errs =
      (processImportW root fR impR ⟨fs, o, e⟩).errs := by
  rw [processImportW_alias root fA fs o e hA, processImportW_rel root fR fs o e hR,
    aliasFoundB_eq_of_consistent hc, hb]
  by_cases hf : relFoundB fs (osPathJoin (dirname fR) impR) = true
  · simp [hf]
  · have hf' : relFoundB fs (osPathJoin (dirname fR) impR) = false := Bool.eq_false_iff.mpr hf
    simp [hf']

theorem C2_same_base_same_class_witness :
    (processImportW "r".data "r/a.ts".data "@/./x".data ⟨fsAllTrue, [], 0⟩).errs =
      (processImportW "r".data "r/f.ts".data "./x".data ⟨fsAllTrue, [], 0⟩).errs :=
  C2_same_base_same_class fsAllTrue (fun _ _ => rfl) "r".data "r/a.ts".data "r/f.ts".data
    "@/./x".data "./x".data [] 0 (by decide) (by decide) (by decide)

/-- Claim C3: for an alias-form specifier the classification is a function
of the project root joined with the prefix-stripped specifier, and does
not depend on the owning file (here: two different owning files give the
same error-count change). -/
theorem C3_alias_root_anchored (fs : FS) (root f1 f2 imp : List Char) (o1 o2 : List Line)
    (e : Nat) (h : List.isPrefixOf aliasPfx imp = true) :
    (processImportW root f1 imp ⟨fs, o1, e⟩).errs =
      (processImportW root f2 imp ⟨fs, o2, e⟩).errs ∧
    (processImportW root f1 imp ⟨fs, o1, e⟩).errs =
      e + (if aliasFoundB fs (osPathJoin root (imp.drop 2)) then 0 else 1) := by
  rw [processImportW_alias root f1 fs o1 e h, processImportW_alias root f2 fs o2 e h]
  by_cases hf : aliasFoundB fs (osPathJoin root (imp.drop 2)) = true
  · simp [hf]
  · have hf' : aliasFoundB fs (osPathJoin root (imp.drop 2)) = false := Bool.eq_false_iff.mpr hf
    simp [hf']

theorem C3_alias_root_anchored_witness :
    ((processImportW "r".data "r/a.ts".data "@/x".data ⟨fsTsx, [], 0⟩).errs =
      (processImportW "r".data "r/deep/dir/b.tsx".data "@/x".data ⟨fsTsx, [], 0⟩).errs) ∧
    (processImportW "r".data "r/a.ts".data "@/x".data ⟨fsTsx, [], 0⟩).errs =
      0 + (if aliasFoundB fsTsx (osPathJoin "r".data ("@/x".data.drop 2)) then 0 else 1) :=
  C3_alias_root_anchored fsTsx "r".data "r/a.ts".data "r/deep/dir/b.tsx".data "@/x".data
    [] [] 0 (by decide)

/-- Claim C4: for a relative-form specifier the classification is a
function of the owning file's directory joined with the specifier, and
does not depend on the project root (here: two different roots give the
same error-count change). -/
theorem C4_relative_file_anchored (fs : FS) (r1 r2 fp imp : List Char) (o1 o2 : List Line)
    (e : Nat) (h : List.isPrefixOf dotPfx imp = true) :
    (processImportW r1 fp imp ⟨fs, o1, e⟩).errs =
      (processImportW r2 fp imp ⟨fs, o2, e⟩).errs ∧
    (processImportW r1 fp imp ⟨fs, o1, e⟩).errs =
      e + (if relFoundB fs (osPathJoin (dirname fp) imp) then 0 else 1) := by
  rw [processImportW_rel r1 fp fs o1 e h, processImportW_rel r2 fp fs o2 e h]
  by_cases hf : relFoundB fs (osPathJoin (dirname fp) imp) = true
  · simp [hf]
  · have hf' : relFoundB fs (osPathJoin (dirname fp) imp) = false := Bool.eq_false_iff.mpr hf
    simp [hf']

theorem C4_relative_file_anchored_witness :
    ((processImportW "r".data "r/y.ts".data "./x".data ⟨fsTsx, [], 0⟩).errs =
      (processImportW "somewhere/else".data "r/y.ts".data "./x".data ⟨fsTsx, [], 0⟩).errs) ∧
    (processImportW "r".data "r/y.ts".data "./x".data ⟨fsTsx, [], 0⟩).errs =
      0 + (if relFoundB fsTsx (osPathJoin (dirname "r/y.ts".data) "./x".data) then 0 else 1) :=
  C4_relative_file_anchored fsTsx "r".data "somewhere/else".data "r/y.ts".data "./x".data
    [] [] 0 (by decide)

/-- Claim C5: a bare (package) specifier, starting with neither `@/` nor
`.`, leaves the run state untouched: no filesystem check is modelled, no
line is printed and the error count does not change, whatever the
filesystem holds. -/
theorem C5_bare_untouched (fs : FS) (root fp imp : List Char) (o : List Line) (e : Nat)
    (h1 : List.isPrefixOf aliasPfx imp = false) (h2 : List.isPrefixOf dotPfx imp = false) :
    processImportW root fp imp ⟨fs, o, e⟩ = ⟨fs, o, e⟩ ∧
    (processImportW root fp imp ⟨fs, o, e⟩).out = o ∧
    (processImportW root fp imp ⟨fs, o, e⟩).errs = e := by
  have heq := processImportW_bare root fp (⟨fs, o, e⟩ : World) h1 h2
  exact ⟨heq, by rw [heq], by rw [heq]⟩

theorem C5_bare_untouched_witness :
    processImportW "r".data "r/a.ts".data "react".data ⟨fsNoContent, [], 0⟩ =
      ⟨fsNoContent, [], 0⟩ ∧
    (processImportW "r".data "r/a.ts".data "react".data ⟨fsNoContent, [], 0⟩).out = [] ∧
    (processImportW "r".data "r/a.ts".data "react".data ⟨fsNoContent, [], 0⟩).errs = 0 :=
  C5_bare_untouched fsNoContent "r".data "r/a.ts".data "react".data [] 0
    (by decide) (by decide)

/-- Claim C6 counterexample: with the two import clauses `from 'a'` and
`from 'b'` on one line, extraction returns the single merged capture
`a' from 'b` rather than the two specifiers, because the capture of the
regex is greedy up to the last quote of the line. -/
theorem C6_single_line_merge_counterexample :
    findallFromSpec ("from 'a' from 'b'".data) = ["a' from 'b".data] ∧
    findallFromSpec ("from 'a' from 'b'".data) ≠ ["a".data, "b".data] := by
  decide

/-- Claim C6 (amended): extraction returns the captured groups of the
non-overlapping left-to-right matches of the regex in order of appearance
with duplicates preserved, each capture running greedily to the last quote
of its line; hence quoted specifiers on separate lines are returned as
separate elements in order, while several `from '...'` clauses sharing one
line are merged into a single element. -/
theorem C6_extraction_per_line (s₁ s₂ : List Char) (h1 : s₁ ≠ []) (h2 : s₂ ≠ [])
    (hn1 : '\n' ∉ s₁) (hn2 : '\n' ∉ s₂) :
    findallFromSpec (fromLine s₁ ++ '\n' :: fromLine s₂) = [s₁, s₂] := by
  have hL : (fromLine s₁ ++ '\n' :: fromLine s₂).length = s₁.length + s₂.length + 15 := by
    simp only [fromLine, List.length_append, List.length_cons, List.length_nil]
    omega
  have hm1 : tryMatchFrom (fromLine s₁ ++ '\n' :: fromLine s₂) =
      some (s₁, '\n' :: fromLine s₂) := by
    have h := tryMatch_fromLine s₁ ('\n' :: fromLine s₂) h1 hn1 (Or.inr ⟨fromLine s₂, rfl⟩)
    simpa [fromLine, List.append_assoc] using h
  have hm2 : tryMatchFrom (fromLine s₂) = some (s₂, []) := by
    have h := tryMatch_fromLine s₂ [] h2 hn2 (Or.inl rfl)
    simpa [fromLine] using h
  rw [findallFromSpec, findallAux_match _ hm1 (by omega),
    findallAux_skip _ (tryMatchFrom_nl _) (by omega),
    findallAux_match _ hm2 (by omega), findallAux_nil]

theorem C6_extraction_per_line_witness :
    ['a'] ≠ ([] : List Char) ∧
    findallFromSpec (fromLine ['a'] ++ '\n' :: fromLine ['a']) = [['a'], ['a']] :=
  ⟨by decide, C6_extraction_per_line ['a'] ['a'] (by decide) (by decide) (by decide) (by decide)⟩

/-- Claim C7: the output of a run is exactly one `Missing import` line per
missing-classified reference, in walk order then in-file order (the order
of `walkDelta`), followed by the single success line exactly when the
final error count is zero; the error count equals the number of missing
lines, and the success line appears in the output exactly when that count
is zero. -/
theorem C7_output_contract (fs : FS) (root : List Char)
    (walk : List (List Char × List (List Char))) :
    (check_imports fs root walk).out =
      (walkDelta fs root walk).map mkMissing ++
        (if (check_imports fs root walk).errs = 0 then [Line.noMissing] else []) ∧
    (check_imports fs root walk).errs = (walkDelta fs root walk).length ∧
    (Line.noMissing ∈ (check_imports fs root walk).out ↔
      (check_imports fs root walk).errs = 0) := by
  rw [check_imports_eq]
  refine ⟨rfl, rfl, ?_⟩
  by_cases h0 : (walkDelta fs root walk).length = 0
  · simp [h0]
  · simp [h0, mkMissing]

/-- Claim C8: a file whose content does not decode contributes nothing:
processing it leaves the run state unchanged, and a whole run over a walk
containing it equals the run over the same walk with the file removed, so
the run completes normally over the remaining files. -/
theorem C8_decode_skip (fs : FS) (root subdir file : List Char) (o : List Line) (e : Nat)
    (pre post : List (List Char × List (List Char))) (files1 files2 : List (List Char))
    (h : fs.content (osPathJoin subdir file) = none) :
    processFileW root subdir file ⟨fs, o, e⟩ = ⟨fs, o, e⟩ ∧
    check_imports fs root (pre ++ (subdir, files1 ++ file :: files2) :: post) =
      check_imports fs root (pre ++ (subdir, files1 ++ files2) :: post) := by
  have hfd : fileDelta fs root subdir file = [] := by
    by_cases hext : (List.isSuffixOf tsxExt file || List.isSuffixOf tsExt file) = true
    · simp [fileDelta, hext, h]
    · have hext' : (List.isSuffixOf tsxExt file || List.isSuffixOf tsExt file) = false :=
        Bool.eq_false_iff.mpr hext
      simp [fileDelta, hext']
  constructor
  · rw [processFileW_delta]
    simp [hfd]
  · rw [check_imports_eq, check_imports_eq]
    have hwd : walkDelta fs root (pre ++ (subdir, files1 ++ file :: files2) :: post) =
        walkDelta fs root (pre ++ (subdir, files1 ++ files2) :: post) := by
      simp [walkDelta, hfd]
    rw [hwd]

theorem C8_decode_skip_witness :
    processFileW "r".data "r".data "a.ts".data ⟨fsNoContent, [], 0⟩ = ⟨fsNoContent, [], 0⟩ ∧
    check_imports fsNoContent "r".data
        ([] ++ ("r".data, [] ++ "a.ts".data :: ["b.ts".data]) :: []) =
      check_imports fsNoContent "r".data ([] ++ ("r".data, [] ++ ["b.ts".data]) :: []) :=
  C8_decode_skip fsNoContent "r".data "r".data "a.ts".data [] 0 [] [] [] ["b.ts".data] rfl

/-- Claim C9: the checker is read-only: the filesystem component of the
run state after a whole run is the filesystem it started from, for every
root and walk. -/
theorem C9_read_only (fs : FS) (root : List Char)
    (walk : List (List Char × List (List Char))) :
    (check_imports fs root walk).fs = fs := by
  rw [check_imports_eq]

/-- Claim C10: on a filesystem where a path reported as a directory also
passes the existence test, the directory-index fallback of the alias
branch is dead code: whenever the base path is a directory the suffix
loop already succeeds through its empty-suffix candidate, and the
per-import processing of the program coincides with the variant whose
fallback has been removed. -/
theorem C10_fallback_unreachable (fs : FS) (hc : FS.consistent fs) :
    (∀ b, fs.isdir b = true → loopFound fs b extList = true) ∧
    (∀ root fp imp o e, processImportW root fp imp ⟨fs, o, e⟩ =
        processImportNoFallbackW root fp imp ⟨fs, o, e⟩) :=
  ⟨fun b hd => loopFound_of_ex_base (hc b hd),
   fun root fp imp o e => processImportW_eq_noFallback hc root fp imp o e⟩

theorem C10_fallback_unreachable_witness :
    loopFound fsAllTrue ("r/x".data) extList = true ∧
    processImportW "r".data "r/a.ts".data "@/x".data ⟨fsAllTrue, [], 0⟩ =
      processImportNoFallbackW "r".data "r/a.ts".data "@/x".data ⟨fsAllTrue, [], 0⟩ :=
  ⟨(C10_fallback_unreachable fsAllTrue (fun _ _ => rfl)).1 ("r/x".data) rfl,
   (C10_fallback_unreachable fsAllTrue (fun _ _ => rfl)).2 "r".data "r/a.ts".data
     "@/x".data [] 0⟩

end CheckImports

/-!
Concrete evaluations cross-checking the embedding of `re.findall`,
`posixpath.dirname` and `posixpath.join` against the behaviour of the
Python library functions on edge cases: greedy captures, mismatched
quotes, whitespace spanning newlines, and path corner cases.
-/

open CheckImports in
example : findallFromSpec ("from 'a' from 'b'".data) = ["a' from 'b".data] := by decide

open CheckImports in
example : findallFromSpec ("x from 'a'\nfrom \"b\"".data) = ["a".data, "b".data] := by decide

open CheckImports in
example : dirname ("r/a/f.ts".data) = "r/a".data := by decide

open CheckImports in
example : osPathJoin ("r/a".data) ("./x".data) = "r/a/./x".data := by decide

open CheckImports in
example : osPathJoin ("r".data) ("/abs".data) = "/abs".data := by decide

open CheckImports in
example : findallFromSpec ("from \"a'".data) = ["a".data] := by decide

open CheckImports in
example : findallFromSpec ("from\n\t'x'".data) = ["x".data] := by decide

open CheckImports in
example : findallFromSpec ("import x from'y'".data) = [] := by decide

open CheckImports in
example : findallFromSpec ("from ''".data) = [] := by decide

open CheckImports in
example : dirname ("abc".data) = [] := by decide

open CheckImports in
example : dirname ("/a".data) = "/".data := by decide

open CheckImports in
example : dirname ("//a".data) = "//".data := by decide

open CheckImports in
example : osPathJoin ("r/".data) ("x".data) = "r/x".data := by decide
